import Mathlib

-- Verification of the MontageSubs/ass-tools repository core:
-- the SSA uuencode/uudecode codec (ass-drawing-subsetter.py, ass-font-extractor.py),
-- the drawing canonicalization/deduplication registry, and the block rewriter.
-- Text is modelled as List Char, bytes as Nat values < 256, assigned character
-- identifiers as Nat code points (Python chr/ord).

namespace AssTools

-- ==================== Codec ====================

-- Source: ass-drawing-subsetter.py, ass_uuencode (lines 85-105).
-- The Python loop processes data in chunks of 3 bytes, right-padding the final
-- chunk with zero bytes, packs into a 24-bit value, emits four 6-bit symbols
-- shifted by +33, and drops the final 1 (resp. 2) symbols when the final chunk
-- had 2 (resp. 1) real bytes.  Unrolled here per final-chunk size.
def ass_uuencode : List Nat → List Nat
  | [] => []
  | [b0] =>
    let v := (b0 <<< 16) ||| (0 <<< 8) ||| 0
    [((v >>> 18) &&& 63) + 33, ((v >>> 12) &&& 63) + 33]
  | [b0, b1] =>
    let v := (b0 <<< 16) ||| (b1 <<< 8) ||| 0
    [((v >>> 18) &&& 63) + 33, ((v >>> 12) &&& 63) + 33, ((v >>> 6) &&& 63) + 33]
  | b0 :: b1 :: b2 :: rest =>
    let v := (b0 <<< 16) ||| (b1 <<< 8) ||| b2
    (((v >>> 18) &&& 63) + 33) :: (((v >>> 12) &&& 63) + 33) ::
      (((v >>> 6) &&& 63) + 33) :: ((v &&& 63) + 33) :: ass_uuencode rest

-- Source: ass-font-extractor.py, ass_uudecode (lines 28-39): kept characters
-- are those with 33 <= ord(c) <= 96.
def inRange (c : Nat) : Bool := decide (33 ≤ c ∧ c ≤ 96)

-- The grouping loop of ass_uudecode: values processed in groups of 4; a final
-- group of fewer than 2 values stops the decode ("if len(c) < 2: break");
-- groups are zero-padded to 4, repacked into a 24-bit value, and 1, 2 or 3
-- bytes are emitted according to the real group size.
def decodeGroups : List Nat → List Nat
  | d0 :: d1 :: d2 :: d3 :: rest =>
    let v := (d0 <<< 18) ||| (d1 <<< 12) ||| (d2 <<< 6) ||| d3
    ((v >>> 16) &&& 255) :: ((v >>> 8) &&& 255) :: (v &&& 255) :: decodeGroups rest
  | [d0, d1] =>
    let v := (d0 <<< 18) ||| (d1 <<< 12) ||| (0 <<< 6) ||| 0
    [(v >>> 16) &&& 255]
  | [d0, d1, d2] =>
    let v := (d0 <<< 18) ||| (d1 <<< 12) ||| (d2 <<< 6) ||| 0
    [(v >>> 16) &&& 255, (v >>> 8) &&& 255]
  | _ => []

-- Source: ass-font-extractor.py, ass_uudecode, line 29: the list comprehension
-- keeping characters with 33 <= ord(c) <= 96 and mapping them to ord(c) - 33.
def valsOf (s : List Nat) : List Nat :=
  (s.filter inRange).map (fun c => c - 33)

-- Source: ass-font-extractor.py, ass_uudecode: filter to chr(33)..chr(96),
-- map each kept character to ord(c) - 33, then decode in groups of 4.
def ass_uudecode (s : List Nat) : List Nat :=
  decodeGroups (valsOf s)

-- ==================== Codec arithmetic lemmas ====================

theorem lorDisj (a b k : Nat) (hb : b < 2 ^ k) : (a <<< k) ||| b = a * 2 ^ k + b := by
  rw [Nat.shiftLeft_eq, Nat.mul_comm a (2 ^ k)]
  exact (Nat.mul_add_lt_is_or hb a).symm

theorem and63 (x : Nat) : x &&& 63 = x % 64 := by
  have h : (63 : Nat) = 2 ^ 6 - 1 := by norm_num
  have h2 : (64 : Nat) = 2 ^ 6 := by norm_num
  rw [h, h2, Nat.and_pow_two_sub_one_eq_mod]

theorem and255 (x : Nat) : x &&& 255 = x % 256 := by
  have h : (255 : Nat) = 2 ^ 8 - 1 := by norm_num
  have h2 : (256 : Nat) = 2 ^ 8 := by norm_num
  rw [h, h2, Nat.and_pow_two_sub_one_eq_mod]

theorem shr (x k : Nat) : x >>> k = x / 2 ^ k := Nat.shiftRight_eq_div_pow x k

-- Packing three bytes into a 24-bit value, as arithmetic.
theorem pack3 (a b c : Nat) (hb : b < 256) (hc : c < 256) :
    (a <<< 16) ||| (b <<< 8) ||| c = a * 65536 + b * 256 + c := by
  rw [Nat.lor_assoc]
  have h1 : (b <<< 8) ||| c = b * 256 + c := by
    have := lorDisj b c 8 (by omega)
    simpa using this
  rw [h1]
  have h2 : (a <<< 16) ||| (b * 256 + c) = a * 65536 + (b * 256 + c) := by
    have := lorDisj a (b * 256 + c) 16 (by omega)
    simpa using this
  rw [h2]
  omega

-- Packing four 6-bit values into a 24-bit value, as arithmetic.
theorem pack4 (d0 d1 d2 d3 : Nat) (h1 : d1 < 64) (h2 : d2 < 64) (h3 : d3 < 64) :
    (d0 <<< 18) ||| (d1 <<< 12) ||| (d2 <<< 6) ||| d3 =
      d0 * 262144 + d1 * 4096 + d2 * 64 + d3 := by
  rw [Nat.lor_assoc, Nat.lor_assoc]
  have e1 : (d2 <<< 6) ||| d3 = d2 * 64 + d3 := by
    have := lorDisj d2 d3 6 (by omega)
    simpa using this
  rw [e1]
  have e2 : (d1 <<< 12) ||| (d2 * 64 + d3) = d1 * 4096 + (d2 * 64 + d3) := by
    have := lorDisj d1 (d2 * 64 + d3) 12 (by omega)
    simpa using this
  rw [e2]
  have e3 : (d0 <<< 18) ||| (d1 * 4096 + (d2 * 64 + d3)) =
      d0 * 262144 + (d1 * 4096 + (d2 * 64 + d3)) := by
    have := lorDisj d0 (d1 * 4096 + (d2 * 64 + d3)) 18 (by omega)
    simpa using this
  rw [e3]
  omega

theorem inRange_code (e : Nat) (he : e ≤ 63) : inRange (e + 33) = true := by
  simp only [inRange, decide_eq_true_eq]
  omega

theorem mask63_le (x : Nat) : x &&& 63 ≤ 63 := by
  rw [and63]
  omega

theorem valsOf_nil : valsOf [] = [] := rfl

theorem valsOf_cons_inRange (x : Nat) (t : List Nat) (hx : inRange x = true) :
    valsOf (x :: t) = (x - 33) :: valsOf t := by
  simp [valsOf, hx]

theorem valsOf_cons_code (e : Nat) (t : List Nat) (he : e ≤ 63) :
    valsOf ((e + 33) :: t) = e :: valsOf t := by
  rw [valsOf_cons_inRange _ _ (inRange_code e he)]
  simp

/-- C1: decoding the string produced by encoding any finite byte sequence
returns exactly that byte sequence: ass_uudecode (ass_uuencode b) = b for every
list of bytes (naturals below 256). -/
theorem c1_roundtrip (b : List Nat) (h : ∀ x ∈ b, x < 256) :
    ass_uudecode (ass_uuencode b) = b := by
  induction b using ass_uuencode.induct with
  | case1 =>
    rfl
  | case2 b0 =>
    have hb0 : b0 < 256 := h b0 (by simp)
    have hv : (b0 <<< 16) ||| (0 <<< 8) ||| 0 = b0 * 65536 + 0 * 256 + 0 :=
      pack3 b0 0 0 (by omega) (by omega)
    simp only [ass_uuencode, hv]
    rw [ass_uudecode,
      valsOf_cons_code _ _ (by rw [and63]; omega),
      valsOf_cons_code _ _ (by rw [and63]; omega), valsOf_nil]
    rw [decodeGroups]
    have hp : ((b0 * 65536 + 0 * 256 + 0) >>> 18 &&& 63) <<< 18 |||
        ((b0 * 65536 + 0 * 256 + 0) >>> 12 &&& 63) <<< 12 ||| (0 <<< 6) ||| 0 =
        ((b0 * 65536 + 0 * 256 + 0) >>> 18 &&& 63) * 262144 +
          ((b0 * 65536 + 0 * 256 + 0) >>> 12 &&& 63) * 4096 + 0 * 64 + 0 :=
      pack4 _ _ 0 0 (by rw [and63]; omega) (by omega) (by omega)
    rw [hp]
    simp only [shr, and63, and255]
    norm_num
    omega
  | case3 b0 b1 =>
    have hb0 : b0 < 256 := h b0 (by simp)
    have hb1 : b1 < 256 := h b1 (by simp)
    have hv : (b0 <<< 16) ||| (b1 <<< 8) ||| 0 = b0 * 65536 + b1 * 256 + 0 :=
      pack3 b0 b1 0 hb1 (by omega)
    simp only [ass_uuencode, hv]
    rw [ass_uudecode,
      valsOf_cons_code _ _ (by rw [and63]; omega),
      valsOf_cons_code _ _ (by rw [and63]; omega),
      valsOf_cons_code _ _ (by rw [and63]; omega), valsOf_nil]
    rw [decodeGroups]
    have hp : ((b0 * 65536 + b1 * 256 + 0) >>> 18 &&& 63) <<< 18 |||
        ((b0 * 65536 + b1 * 256 + 0) >>> 12 &&& 63) <<< 12 |||
        ((b0 * 65536 + b1 * 256 + 0) >>> 6 &&& 63) <<< 6 ||| 0 =
        ((b0 * 65536 + b1 * 256 + 0) >>> 18 &&& 63) * 262144 +
          ((b0 * 65536 + b1 * 256 + 0) >>> 12 &&& 63) * 4096 +
          ((b0 * 65536 + b1 * 256 + 0) >>> 6 &&& 63) * 64 + 0 :=
      pack4 _ _ _ 0 (by rw [and63]; omega) (by rw [and63]; omega) (by omega)
    rw [hp]
    simp only [shr, and63, and255]
    norm_num
    constructor
    · omega
    · omega
  | case4 b0 b1 b2 rest ih =>
    have hb0 : b0 < 256 := h b0 (by simp)
    have hb1 : b1 < 256 := h b1 (by simp)
    have hb2 : b2 < 256 := h b2 (by simp)
    have hrest : ∀ x ∈ rest, x < 256 := fun x hx => h x (by simp [hx])
    have hv : (b0 <<< 16) ||| (b1 <<< 8) ||| b2 = b0 * 65536 + b1 * 256 + b2 :=
      pack3 b0 b1 b2 hb1 hb2
    simp only [ass_uuencode, hv]
    rw [ass_uudecode,
      valsOf_cons_code _ _ (by rw [and63]; omega),
      valsOf_cons_code _ _ (by rw [and63]; omega),
      valsOf_cons_code _ _ (by rw [and63]; omega),
      valsOf_cons_code _ _ (by rw [and63]; omega)]
    rw [decodeGroups]
    have hp : ((b0 * 65536 + b1 * 256 + b2) >>> 18 &&& 63) <<< 18 |||
        ((b0 * 65536 + b1 * 256 + b2) >>> 12 &&& 63) <<< 12 |||
        ((b0 * 65536 + b1 * 256 + b2) >>> 6 &&& 63) <<< 6 |||
        ((b0 * 65536 + b1 * 256 + b2) &&& 63) =
        ((b0 * 65536 + b1 * 256 + b2) >>> 18 &&& 63) * 262144 +
          ((b0 * 65536 + b1 * 256 + b2) >>> 12 &&& 63) * 4096 +
          ((b0 * 65536 + b1 * 256 + b2) >>> 6 &&& 63) * 64 +
          ((b0 * 65536 + b1 * 256 + b2) &&& 63) :=
      pack4 _ _ _ _ (by rw [and63]; omega) (by rw [and63]; omega) (by rw [and63]; omega)
    rw [hp]
    simp only [shr, and63, and255]
    norm_num
    refine ⟨by omega, by omega, by omega, ?_⟩
    have := ih hrest
    rw [ass_uudecode] at this
    exact this

/-- C1 witness: the round-trip evaluated at the concrete byte sequence
[0, 77, 255, 3]. -/
theorem c1_roundtrip_witness :
    ass_uudecode (ass_uuencode [0, 77, 255, 3]) = [0, 77, 255, 3] :=
  c1_roundtrip [0, 77, 255, 3] (by decide)

-- ==================== C7: spec-side description of the encoder ====================

-- The claim's description of the encoding, written independently of the source:
-- split the input into 3-byte groups.
def chunk3 (data : List Nat) : List (List Nat) :=
  match data with
  | [] => []
  | x :: rest => ((x :: rest).take 3) :: chunk3 ((x :: rest).drop 3)
termination_by data.length
decreasing_by simp; omega

-- Zero-pad the group to 3 bytes, pack into a 24-bit value, emit the four
-- characters chr(((v >> s) & 0x3f) + 33) for s in 18, 12, 6, 0, and drop the
-- last 2 characters when the group has exactly 1 real byte, the last 1 when it
-- has exactly 2.
def encChunkSpec (chunk : List Nat) : List Nat :=
  let p := chunk ++ List.replicate (3 - chunk.length) 0
  let v := p.getD 0 0 * 65536 + p.getD 1 0 * 256 + p.getD 2 0
  let four := [v / 262144 % 64 + 33, v / 4096 % 64 + 33, v / 64 % 64 + 33, v % 64 + 33]
  if chunk.length = 1 then four.take 2
  else if chunk.length = 2 then four.take 3
  else four

def ass_uuencodeSpec (data : List Nat) : List Nat :=
  List.flatten ((chunk3 data).map encChunkSpec)

/-- C7: the encoder processes the input in 3-byte groups, zero-padding the final
short group, packing each group into a 24-bit value and emitting four characters
chr(((v >> s) & 0x3f) + 33) for s in 18, 12, 6, 0, dropping the last 2 emitted
characters when the final group has exactly 1 real byte and the last 1 when it
has exactly 2; encoding the two bytes of "AB" yields a 3-character string, and
encoding the empty byte sequence yields the empty string. -/
theorem c7_encode :
    (∀ b : List Nat, (∀ x ∈ b, x < 256) → ass_uuencode b = ass_uuencodeSpec b) ∧
    (ass_uuencode [65, 66]).length = 3 ∧ ass_uuencode [] = [] := by
  refine ⟨?_, by decide, rfl⟩
  intro b h
  induction b using ass_uuencode.induct with
  | case1 =>
    simp [ass_uuencode, ass_uuencodeSpec, chunk3]
  | case2 b0 =>
    have hb0 : b0 < 256 := h b0 (by simp)
    have hv : (b0 <<< 16) ||| (0 <<< 8) ||| 0 = b0 * 65536 + 0 * 256 + 0 :=
      pack3 b0 0 0 (by omega) (by omega)
    simp only [ass_uuencode, hv, shr, and63]
    simp [ass_uuencodeSpec, chunk3, encChunkSpec]
  | case3 b0 b1 =>
    have hb0 : b0 < 256 := h b0 (by simp)
    have hb1 : b1 < 256 := h b1 (by simp)
    have hv : (b0 <<< 16) ||| (b1 <<< 8) ||| 0 = b0 * 65536 + b1 * 256 + 0 :=
      pack3 b0 b1 0 hb1 (by omega)
    simp only [ass_uuencode, hv, shr, and63]
    simp [ass_uuencodeSpec, chunk3, encChunkSpec]
  | case4 b0 b1 b2 rest ih =>
    have hb1 : b1 < 256 := h b1 (by simp)
    have hb2 : b2 < 256 := h b2 (by simp)
    have hrest : ∀ x ∈ rest, x < 256 := fun x hx => h x (by simp [hx])
    have hv : (b0 <<< 16) ||| (b1 <<< 8) ||| b2 = b0 * 65536 + b1 * 256 + b2 :=
      pack3 b0 b1 b2 hb1 hb2
    simp only [ass_uuencode, hv, shr, and63]
    rw [ih hrest]
    simp [ass_uuencodeSpec, chunk3, encChunkSpec]

/-- C7 witness: the general group-structure equation applied to the concrete
byte sequence [200, 1]. -/
theorem c7_encode_witness :
    ass_uuencode [200, 1] = ass_uuencodeSpec [200, 1] :=
  c7_encode.1 [200, 1] (by decide)

-- ==================== C8: decoder length behaviour ====================

theorem decodeGroups_length (d : List Nat) :
    (decodeGroups d).length = 3 * (d.length / 4) + (d.length % 4 - 1) := by
  induction d using decodeGroups.induct with
  | case1 d0 d1 d2 d3 rest ih =>
    simp only [decodeGroups, List.length_cons, ih]
    omega
  | case2 d0 d1 =>
    simp [decodeGroups]
  | case3 d0 d1 d2 =>
    simp [decodeGroups]
  | case4 d h1 h2 h3 =>
    rcases d with _ | ⟨a, _ | ⟨b, _ | ⟨c, _ | ⟨e, rest⟩⟩⟩⟩
    · simp [decodeGroups]
    · simp [decodeGroups]
    · exact absurd rfl (h2 a b)
    · exact absurd rfl (h3 a b c)
    · exact absurd rfl (h1 a b c e rest)

/-- C8: decoding keeps only characters with code points 33 through 96, and
processes the values in groups of 4: a trailing group of exactly 2 values
yields exactly 1 byte, exactly 3 values yield 2 bytes, a full group of 4 values
yields 3 bytes, and fewer than 2 trailing values produce nothing; hence the
output length is 3 * (n / 4) + (n % 4 - 1) for n kept characters (Nat
subtraction), decoding the empty string yields the empty byte sequence, and so
does decoding a string of only out-of-range characters. -/
theorem c8_decode :
    (∀ s : List Nat, (ass_uudecode s).length =
      3 * ((s.filter inRange).length / 4) + ((s.filter inRange).length % 4 - 1)) ∧
    (∀ d0 d1 : Nat, (decodeGroups [d0, d1]).length = 1) ∧
    (∀ d0 d1 d2 : Nat, (decodeGroups [d0, d1, d2]).length = 2) ∧
    (∀ d0 d1 d2 d3 : Nat, (decodeGroups [d0, d1, d2, d3]).length = 3) ∧
    (∀ d0 : Nat, decodeGroups [d0] = []) ∧
    ass_uudecode [] = [] ∧
    (∀ s : List Nat, (∀ c ∈ s, inRange c = false) → ass_uudecode s = []) := by
  refine ⟨?_, fun d0 d1 => rfl, fun d0 d1 d2 => rfl, fun d0 d1 d2 d3 => rfl,
    fun d0 => rfl, rfl, ?_⟩
  · intro s
    have hl : (valsOf s).length = (s.filter inRange).length := by
      simp [valsOf]
    rw [ass_uudecode, decodeGroups_length, hl]
  · intro s hs
    have hf : s.filter inRange = [] := List.filter_eq_nil_iff.mpr (by
      intro c hc
      simp [hs c hc])
    rw [ass_uudecode, valsOf, hf]
    rfl

/-- C8 witness: decoding a string containing only out-of-range characters
(code points 10, 120, 200) returns the empty byte sequence. -/
theorem c8_decode_witness : ass_uudecode [10, 120, 200] = [] :=
  c8_decode.2.2.2.2.2.2 [10, 120, 200] (by decide)

-- ==================== Canonicalization ====================

-- Python str whitespace (ASCII range, the characters occurring in ASS files):
-- space, tab, newline, vertical tab, form feed, carriage return.
def isSpaceCh (c : Char) : Bool :=
  decide (c = ' ' ∨ c = '\t' ∨ c = '\n' ∨ c = '\x0b' ∨ c = '\x0c' ∨ c = '\r')

-- Python str.split() with no arguments: split on runs of whitespace, dropping
-- leading, trailing and repeated separators.
def splitAux : List Char → List Char → List (List Char)
  | [], acc => if acc.isEmpty then [] else [acc.reverse]
  | c :: rest, acc =>
    if isSpaceCh c then
      if acc.isEmpty then splitAux rest [] else acc.reverse :: splitAux rest []
    else splitAux rest (c :: acc)

def pySplit (s : List Char) : List (List Char) := splitAux s []

-- Python " ".join(words).
def joinWords : List (List Char) → List Char
  | [] => []
  | [w] => w
  | w :: rest => w ++ ' ' :: joinWords rest

-- Python str.strip(): drop leading and trailing whitespace.
def pyStrip (s : List Char) : List Char :=
  ((s.dropWhile isSpaceCh).reverse.dropWhile isSpaceCh).reverse

-- Source: ass-drawing-subsetter.py line 127 / 179:
-- clean_d = " ".join(drawing_data.split()).strip()
def clean (d : List Char) : List Char := pyStrip (joinWords (pySplit d))

-- ==================== Scanner ====================

-- One match of the pattern (\{[^}]*?\\p[1-9][^}]*\})(.*?)(\{\\p0\}) with
-- re.DOTALL | re.IGNORECASE: start tag text, payload text, end tag text.
structure MatchGroups where
  startTag : List Char
  payload : List Char
  endTag : List Char
deriving DecidableEq

-- IGNORECASE applies to the letter p in \p.
def isP (c : Char) : Bool := decide (c = 'p' ∨ c = 'P')

def isDigit19 (c : Char) : Bool := decide ('1' ≤ c ∧ c ≤ '9')

-- Split at the first unescaped-regex sense '\x7d' (the character class [^}]
-- cannot cross it, and [^}]*\} closes greedily at the first one).
def findClose : List Char → Option (List Char × List Char)
  | [] => none
  | c :: t =>
    if c = '\x7d' then some ([], t)
    else
      match findClose t with
      | none => none
      | some (body, rest) => some (c :: body, rest)

-- Does \p[1-9] (case-insensitive p) start at this position?
def dirAt (s : List Char) : Bool :=
  match s with
  | '\\' :: c :: d :: _ => isP c && isDigit19 d
  | _ => false

-- Does the tag body contain \p[1-9] anywhere?
def containsDirective : List Char → Bool
  | [] => false
  | ch :: t => dirAt (ch :: t) || containsDirective t

-- Does the end-tag pattern \{\\p0\} (case-insensitive p) start here?  Returns
-- the matched text and the remainder.
def endTagSplit (s : List Char) : Option (List Char × List Char) :=
  match s with
  | a :: b :: c :: d :: e :: rest =>
    if a = '\x7b' ∧ b = '\\' ∧ isP c = true ∧ d = '0' ∧ e = '\x7d' then
      some ([a, b, c, d, e], rest)
    else none
  | _ => none

-- Lazy (.*?) up to the nearest end tag: returns payload, matched end-tag text,
-- remainder.
def findEndTag : List Char → Option (List Char × List Char × List Char)
  | [] => none
  | ch :: t =>
    match endTagSplit (ch :: t) with
    | some (tag, rest) => some ([], tag, rest)
    | none =>
      match findEndTag t with
      | none => none
      | some (pl, tag, r) => some (ch :: pl, tag, r)

-- Try to match the whole pattern at the head of s: an opening brace, a body
-- with no closing brace that contains \p[1-9], the first closing brace, then
-- lazily the nearest end tag.
def tryMatchAt (s : List Char) : Option (MatchGroups × List Char) :=
  match s with
  | [] => none
  | c :: t =>
    if c = '\x7b' then
      match findClose t with
      | none => none
      | some (body, rest1) =>
        if containsDirective body then
          match findEndTag rest1 with
          | none => none
          | some (payload, tag, rest2) =>
            some (⟨'\x7b' :: (body ++ ['\x7d']), payload, tag⟩, rest2)
        else none
    else none

-- Leftmost match: the scan position advances one character at a time until the
-- pattern matches; returns the text before the match, the groups, and the
-- remainder after the match.
def findMatch : List Char → Option (List Char × MatchGroups × List Char)
  | [] => none
  | c :: t =>
    match tryMatchAt (c :: t) with
    | some (g, after) => some ([], g, after)
    | none =>
      match findMatch t with
      | none => none
      | some (pre, g, after) => some (c :: pre, g, after)

-- re.findall: all non-overlapping matches in scan order (fueled recursion;
-- each match consumes at least one character, so length + 1 fuel suffices).
def scanBlocksF : Nat → List Char → List MatchGroups
  | 0, _ => []
  | fuel + 1, s =>
    match findMatch s with
    | none => []
    | some (_, g, rest) => g :: scanBlocksF fuel rest

def scanBlocks (s : List Char) : List MatchGroups := scanBlocksF (s.length + 1) s

-- ==================== Registry ====================

-- Python dict key lookup over the insertion-ordered association list.
def lookup : List (List Char × Nat) → List Char → Option Nat
  | [], _ => none
  | (k, v) :: rest, d => if k = d then some v else lookup rest d

-- Source: ass-drawing-subsetter.py, load_and_extract lines 125-133:
-- for each match, clean the payload; if non-empty and unseen, assign
-- chr(ord('a') + len(seen)) and record insertion order.  Character code points
-- are modelled as Nat (ord 'a' = 97).
def extractLoop : List MatchGroups → List (List Char × Nat) → List (List Char × Nat)
  | [], seen => seen
  | g :: rest, seen =>
    let d := clean g.payload
    if d ≠ [] ∧ lookup seen d = none then
      extractLoop rest (seen ++ [(d, 97 + seen.length)])
    else extractLoop rest seen

def load_and_extract (content : List Char) : List (List Char × Nat) :=
  extractLoop (scanBlocks content) []

-- Claim-side characterization: the distinct non-empty canonical payloads in
-- first-occurrence order, relative to already-known keys.
def distinctAux : List MatchGroups → List (List Char) → List (List Char)
  | [], _ => []
  | g :: rest, keys =>
    let d := clean g.payload
    if d ≠ [] ∧ d ∉ keys then d :: distinctAux rest (keys ++ [d])
    else distinctAux rest keys

-- Claim-side characterization: assign consecutive code points from n.
def assignFrom : Nat → List (List Char) → List (List Char × Nat)
  | _, [] => []
  | n, d :: rest => (d, n) :: assignFrom (n + 1) rest

-- ==================== Scanner decomposition lemmas ====================

theorem findClose_decomp : ∀ (s body rest : List Char),
    findClose s = some (body, rest) → s = body ++ '\x7d' :: rest := by
  intro s
  induction s with
  | nil => intro body rest h; simp [findClose] at h
  | cons c t ih =>
    intro body rest h
    rw [findClose] at h
    by_cases hc : c = '\x7d'
    · rw [if_pos hc] at h
      simp only [Option.some.injEq, Prod.mk.injEq] at h
      obtain ⟨h1, h2⟩ := h
      subst h1; subst h2
      simp [hc]
    · rw [if_neg hc] at h
      cases hfc : findClose t with
      | none => rw [hfc] at h; simp at h
      | some pr =>
        obtain ⟨b', r'⟩ := pr
        rw [hfc] at h
        simp only [Option.some.injEq, Prod.mk.injEq] at h
        obtain ⟨h1, h2⟩ := h
        subst h1; subst h2
        have ht := ih b' r' hfc
        simp [ht]

theorem endTagSplit_decomp (s tag rest : List Char)
    (h : endTagSplit s = some (tag, rest)) : s = tag ++ rest ∧ tag ≠ [] := by
  unfold endTagSplit at h
  split at h
  · split at h
    · simp only [Option.some.injEq, Prod.mk.injEq] at h
      obtain ⟨h1, h2⟩ := h
      subst h1; subst h2
      simp
    · simp at h
  · simp at h

theorem findEndTag_decomp : ∀ (s pl tag rest : List Char),
    findEndTag s = some (pl, tag, rest) → s = pl ++ tag ++ rest := by
  intro s
  induction s with
  | nil => intro pl tag rest h; simp [findEndTag] at h
  | cons ch t ih =>
    intro pl tag rest h
    rw [findEndTag] at h
    cases hsp : endTagSplit (ch :: t) with
    | some pr =>
      obtain ⟨tag', rest'⟩ := pr
      rw [hsp] at h
      simp only [Option.some.injEq, Prod.mk.injEq] at h
      obtain ⟨h1, h2, h3⟩ := h
      subst h1; subst h2; subst h3
      simpa using (endTagSplit_decomp _ _ _ hsp).1
    | none =>
      rw [hsp] at h
      cases hft : findEndTag t with
      | none => rw [hft] at h; simp at h
      | some pr =>
        obtain ⟨pl', tag', r'⟩ := pr
        rw [hft] at h
        simp only [Option.some.injEq, Prod.mk.injEq] at h
        obtain ⟨h1, h2, h3⟩ := h
        subst h1; subst h2; subst h3
        have := ih pl' tag' r' hft
        simp [this]

theorem tryMatchAt_decomp (s : List Char) (g : MatchGroups) (after : List Char)
    (h : tryMatchAt s = some (g, after)) :
    s = g.startTag ++ g.payload ++ g.endTag ++ after ∧ g.startTag ≠ [] := by
  obtain ⟨gs, gp, ge⟩ := g
  cases s with
  | nil => simp [tryMatchAt] at h
  | cons c t =>
    by_cases hc : c = '\x7b'
    case neg => simp [tryMatchAt, hc] at h
    cases hfc : findClose t with
    | none => simp [tryMatchAt, hc, hfc] at h
    | some pr =>
      obtain ⟨body, rest1⟩ := pr
      by_cases hcd : containsDirective body = true
      case neg => simp [tryMatchAt, hc, hfc, hcd] at h
      cases hft : findEndTag rest1 with
      | none => simp [tryMatchAt, hc, hfc, hcd, hft] at h
      | some pr2 =>
        obtain ⟨payload, tag, rest2⟩ := pr2
        simp only [tryMatchAt, hc, hfc, hcd, hft, if_true, Option.some.injEq,
          Prod.mk.injEq, MatchGroups.mk.injEq] at h
        obtain ⟨⟨h1, h2, h3⟩, h4⟩ := h
        subst h1; subst h2; subst h3; subst h4
        have hd1 := findClose_decomp t body rest1 hfc
        have hd2 := findEndTag_decomp rest1 payload tag rest2 hft
        subst hd1
        constructor
        · simp [hc, hd2]
        · simp

theorem findMatch_decomp : ∀ (s pre : List Char) (g : MatchGroups) (rest : List Char),
    findMatch s = some (pre, g, rest) →
    s = pre ++ g.startTag ++ g.payload ++ g.endTag ++ rest ∧ g.startTag ≠ [] := by
  intro s
  induction s with
  | nil => intro pre g rest h; simp [findMatch] at h
  | cons c t ih =>
    intro pre g rest h
    cases htm : tryMatchAt (c :: t) with
    | some pr =>
      obtain ⟨g', after⟩ := pr
      simp only [findMatch, htm, Option.some.injEq, Prod.mk.injEq] at h
      obtain ⟨h1, h2, h3⟩ := h
      subst h1; subst h2; subst h3
      have := tryMatchAt_decomp _ _ _ htm
      constructor
      · simpa using this.1
      · exact this.2
    | none =>
      cases hfm : findMatch t with
      | none => simp [findMatch, htm, hfm] at h
      | some pr =>
        obtain ⟨pre', g', after'⟩ := pr
        simp only [findMatch, htm, hfm, Option.some.injEq, Prod.mk.injEq] at h
        obtain ⟨h1, h2, h3⟩ := h
        subst h1; subst h2; subst h3
        have := ih pre' g' after' hfm
        constructor
        · simp [this.1]
        · exact this.2

theorem findMatch_rest_lt (s pre : List Char) (g : MatchGroups) (rest : List Char)
    (h : findMatch s = some (pre, g, rest)) : rest.length < s.length := by
  obtain ⟨hs, hne⟩ := findMatch_decomp s pre g rest h
  have h0 : 0 < g.startTag.length := List.length_pos.mpr hne
  have hl := congrArg List.length hs
  simp [List.length_append] at hl
  omega

-- Fuel irrelevance: any fuel above the text length computes the full scan.
theorem scanBlocksF_irrel : ∀ (fuel : Nat) (s : List Char), s.length < fuel →
    scanBlocksF fuel s = scanBlocksF (s.length + 1) s := by
  intro fuel
  induction fuel using Nat.strong_induction_on with
  | _ fuel ih =>
    intro s hs
    cases fuel with
    | zero => omega
    | succ f =>
      cases hfm : findMatch s with
      | none => simp [scanBlocksF, hfm]
      | some pr =>
        obtain ⟨pre, g, rest⟩ := pr
        have hlt := findMatch_rest_lt s pre g rest hfm
        have e1 : scanBlocksF f rest = scanBlocksF (rest.length + 1) rest :=
          ih f (by omega) rest (by omega)
        have e2 : scanBlocksF s.length rest = scanBlocksF (rest.length + 1) rest :=
          ih s.length (by omega) rest (by omega)
        simp only [scanBlocksF, hfm, e1, e2]

theorem scanBlocks_eq (s : List Char) :
    scanBlocks s = (match findMatch s with
      | none => []
      | some (_, g, rest) => g :: scanBlocks rest) := by
  cases hfm : findMatch s with
  | none => simp [scanBlocks, scanBlocksF, hfm]
  | some pr =>
    obtain ⟨pre, g, rest⟩ := pr
    have hlt := findMatch_rest_lt s pre g rest hfm
    simp only [hfm]
    show scanBlocksF (s.length + 1) s = g :: scanBlocks rest
    simp only [scanBlocksF, hfm]
    rw [scanBlocksF_irrel s.length rest (by omega)]
    rfl

-- ==================== Rewriter ====================

-- Replacement template of re.sub(r'\\p[1-9]', r'\\fn%s\\p0' % FONT_NAME, ...):
-- the literal text \fnASSDrawSubset\p0.
def fnReplStr : String := "\\fnASSDrawSubset\\p0"

def fnRepl : List Char := fnReplStr.data

-- Source: ass-drawing-subsetter.py line 183: replace every occurrence of
-- \p[1-9] (case-insensitive) inside the start tag by \fnASSDrawSubset\p0,
-- scanning left to right (fueled; one unit of fuel per consumed character).
def pSubF : Nat → List Char → List Char
  | 0, _ => []
  | fuel + 1, s =>
    match s with
    | '\\' :: c :: d :: rest =>
      if isP c && isDigit19 d then fnRepl ++ pSubF fuel rest
      else '\\' :: pSubF fuel (c :: d :: rest)
    | ch :: rest => ch :: pSubF fuel rest
    | [] => []

def pSub (s : List Char) : List Char := pSubF s.length s

-- Source: ass-drawing-subsetter.py, rewrite_ass lines 176-185, the
-- replace_callback: clean the payload, look it up; on a hit emit the modified
-- start tag followed by the assigned character, otherwise emit the whole
-- matched text unchanged.
def replaceCallback (reg : List (List Char × Nat)) (g : MatchGroups) : List Char :=
  match lookup reg (clean g.payload) with
  | some code => pSub g.startTag ++ [Char.ofNat code]
  | none => g.startTag ++ g.payload ++ g.endTag

-- re.sub over the whole document: non-overlapping leftmost matches replaced
-- via the callback, text between matches passed through (fueled).
def subDrawingF (reg : List (List Char × Nat)) : Nat → List Char → List Char
  | 0, s => s
  | fuel + 1, s =>
    match findMatch s with
    | none => s
    | some (pre, g, rest) => pre ++ replaceCallback reg g ++ subDrawingF reg fuel rest

def subDrawing (reg : List (List Char × Nat)) (s : List Char) : List Char :=
  subDrawingF reg (s.length + 1) s

theorem subDrawingF_irrel (reg : List (List Char × Nat)) :
    ∀ (fuel : Nat) (s : List Char), s.length < fuel →
    subDrawingF reg fuel s = subDrawingF reg (s.length + 1) s := by
  intro fuel
  induction fuel using Nat.strong_induction_on with
  | _ fuel ih =>
    intro s hs
    cases fuel with
    | zero => omega
    | succ f =>
      cases hfm : findMatch s with
      | none => simp [subDrawingF, hfm]
      | some pr =>
        obtain ⟨pre, g, rest⟩ := pr
        have hlt := findMatch_rest_lt s pre g rest hfm
        have e1 : subDrawingF reg f rest = subDrawingF reg (rest.length + 1) rest :=
          ih f (by omega) rest (by omega)
        have e2 : subDrawingF reg s.length rest = subDrawingF reg (rest.length + 1) rest :=
          ih s.length (by omega) rest (by omega)
        simp only [subDrawingF, hfm, e1, e2]

theorem subDrawing_eq (reg : List (List Char × Nat)) (s : List Char) :
    subDrawing reg s = (match findMatch s with
      | none => s
      | some (pre, g, rest) => pre ++ replaceCallback reg g ++ subDrawing reg rest) := by
  cases hfm : findMatch s with
  | none => simp [subDrawing, subDrawingF, hfm]
  | some pr =>
    obtain ⟨pre, g, rest⟩ := pr
    have hlt := findMatch_rest_lt s pre g rest hfm
    simp only [hfm]
    show subDrawingF reg (s.length + 1) s = _
    simp only [subDrawingF, hfm]
    rw [subDrawingF_irrel reg s.length rest (by omega)]
    rfl

-- The same scan, keeping both the unchanged inter-match text and the match
-- groups: used to state what the rewrite pass preserves.
def scanSplitF : Nat → List Char → List (List Char × MatchGroups) × List Char
  | 0, s => ([], s)
  | fuel + 1, s =>
    match findMatch s with
    | none => ([], s)
    | some (pre, g, rest) =>
      let p := scanSplitF fuel rest
      ((pre, g) :: p.1, p.2)

def scanSplit (s : List Char) : List (List Char × MatchGroups) × List Char :=
  scanSplitF (s.length + 1) s

theorem scanSplitF_irrel : ∀ (fuel : Nat) (s : List Char), s.length < fuel →
    scanSplitF fuel s = scanSplitF (s.length + 1) s := by
  intro fuel
  induction fuel using Nat.strong_induction_on with
  | _ fuel ih =>
    intro s hs
    cases fuel with
    | zero => omega
    | succ f =>
      cases hfm : findMatch s with
      | none => simp [scanSplitF, hfm]
      | some pr =>
        obtain ⟨pre, g, rest⟩ := pr
        have hlt := findMatch_rest_lt s pre g rest hfm
        have e1 : scanSplitF f rest = scanSplitF (rest.length + 1) rest :=
          ih f (by omega) rest (by omega)
        have e2 : scanSplitF s.length rest = scanSplitF (rest.length + 1) rest :=
          ih s.length (by omega) rest (by omega)
        simp only [scanSplitF, hfm, e1, e2]

theorem scanSplit_eq (s : List Char) :
    scanSplit s = (match findMatch s with
      | none => ([], s)
      | some (pre, g, rest) =>
        ((pre, g) :: (scanSplit rest).1, (scanSplit rest).2)) := by
  cases hfm : findMatch s with
  | none => simp [scanSplit, scanSplitF, hfm]
  | some pr =>
    obtain ⟨pre, g, rest⟩ := pr
    have hlt := findMatch_rest_lt s pre g rest hfm
    simp only [hfm]
    show scanSplitF (s.length + 1) s = _
    simp only [scanSplitF, hfm]
    rw [scanSplitF_irrel s.length rest (by omega)]
    rfl

-- Source: ass-drawing-subsetter.py line 190:
-- re.sub(r'\n\[Fonts\].*', '', final_text, flags=re.DOTALL): delete from the
-- first occurrence of a newline followed by [Fonts] to the end of the text.
def removeFonts : List Char → List Char
  | '\n' :: '[' :: 'F' :: 'o' :: 'n' :: 't' :: 's' :: ']' :: _ => []
  | c :: rest => c :: removeFonts rest
  | [] => []

-- Source: ass-drawing-subsetter.py lines 193-195: the appended [Fonts] block,
-- then the encoded data split into 80-character lines, each newline-terminated.
def wrap80F : Nat → List Char → List Char
  | 0, _ => []
  | _, [] => []
  | fuel + 1, c :: rest =>
    ((c :: rest).take 80) ++ '\n' :: wrap80F fuel ((c :: rest).drop 80)

def wrap80 (s : List Char) : List Char := wrap80F (s.length + 1) s

def fontHeaderStr : String := "\n\n[Fonts]\nfontname: ASSDrawSubset_0.ttf\n"

def fontBlock (ttf : List Nat) : List Char :=
  fontHeaderStr.data ++ wrap80 ((ass_uuencode ttf).map Char.ofNat)

-- Source: ass-drawing-subsetter.py, rewrite_ass lines 175-197: substitute all
-- drawing blocks, delete any pre-existing [Fonts] section, strip leading and
-- trailing whitespace, then append the new font block.
def rewrite_ass (reg : List (List Char × Nat)) (ttf : List Nat)
    (content : List Char) : List Char :=
  pyStrip (removeFonts (subDrawing reg content)) ++ fontBlock ttf

-- Reassembly of a scanSplit decomposition with the original matched text.
def joinOrig (p : List (List Char × MatchGroups) × List Char) : List Char :=
  (p.1.map (fun q => q.1 ++ q.2.startTag ++ q.2.payload ++ q.2.endTag)).flatten ++ p.2

-- Reassembly with each match replaced through the rewrite callback, the
-- inter-match text kept verbatim.
def joinRepl (reg : List (List Char × Nat))
    (p : List (List Char × MatchGroups) × List Char) : List Char :=
  (p.1.map (fun q => q.1 ++ replaceCallback reg q.2)).flatten ++ p.2

theorem scanSplit_orig_aux : ∀ (n : Nat) (s : List Char), s.length ≤ n →
    joinOrig (scanSplit s) = s := by
  intro n
  induction n with
  | zero =>
    intro s hs
    have hnil : s = [] := List.eq_nil_of_length_eq_zero (by omega)
    subst hnil
    rw [scanSplit_eq]
    simp [findMatch, joinOrig]
  | succ n ih =>
    intro s hs
    rw [scanSplit_eq]
    cases hfm : findMatch s with
    | none => simp [joinOrig]
    | some pr =>
      obtain ⟨pre, g, rest⟩ := pr
      have hlt := findMatch_rest_lt s pre g rest hfm
      have hd := findMatch_decomp s pre g rest hfm
      have ihr := ih rest (by omega)
      simp only [joinOrig, List.map_cons, List.flatten_cons] at ihr ⊢
      rw [hd.1]
      simp only [List.append_assoc] at ihr ⊢
      rw [ihr]

theorem scanSplit_orig (s : List Char) : joinOrig (scanSplit s) = s :=
  scanSplit_orig_aux s.length s le_rfl

theorem subDrawing_repl_aux (reg : List (List Char × Nat)) :
    ∀ (n : Nat) (s : List Char), s.length ≤ n →
    subDrawing reg s = joinRepl reg (scanSplit s) := by
  intro n
  induction n with
  | zero =>
    intro s hs
    have hnil : s = [] := List.eq_nil_of_length_eq_zero (by omega)
    subst hnil
    rw [subDrawing_eq, scanSplit_eq]
    simp [findMatch, joinRepl]
  | succ n ih =>
    intro s hs
    rw [subDrawing_eq, scanSplit_eq]
    cases hfm : findMatch s with
    | none => simp [joinRepl]
    | some pr =>
      obtain ⟨pre, g, rest⟩ := pr
      have hlt := findMatch_rest_lt s pre g rest hfm
      have ihr := ih rest (by omega)
      simp only [joinRepl, List.map_cons, List.flatten_cons] at ihr ⊢
      simp only [List.append_assoc] at ihr ⊢
      rw [ihr]

theorem subDrawing_repl (reg : List (List Char × Nat)) (s : List Char) :
    subDrawing reg s = joinRepl reg (scanSplit s) :=
  subDrawing_repl_aux reg s.length s le_rfl

-- ==================== Registry lemmas ====================

theorem lookup_eq_none_iff : ∀ (l : List (List Char × Nat)) (d : List Char),
    lookup l d = none ↔ d ∉ l.map Prod.fst := by
  intro l
  induction l with
  | nil => intro d; simp [lookup]
  | cons p rest ih =>
    intro d
    obtain ⟨k, v⟩ := p
    by_cases hk : k = d
    · subst hk
      simp [lookup]
    · simp only [lookup, if_neg hk, List.map_cons, List.mem_cons, ih]
      constructor
      · intro hd
        intro hc
        rcases hc with hc | hc
        · exact hk hc.symm
        · exact hd hc
      · intro hd hc
        exact hd (Or.inr hc)

theorem extractLoop_eq : ∀ (gs : List MatchGroups) (seen : List (List Char × Nat)),
    extractLoop gs seen =
      seen ++ assignFrom (97 + seen.length) (distinctAux gs (seen.map Prod.fst)) := by
  intro gs
  induction gs with
  | nil => intro seen; simp [extractLoop, distinctAux, assignFrom]
  | cons g rest ih =>
    intro seen
    by_cases hcond : clean g.payload ≠ [] ∧ lookup seen (clean g.payload) = none
    · have hnotin : clean g.payload ∉ seen.map Prod.fst :=
        (lookup_eq_none_iff _ _).mp hcond.2
      simp only [extractLoop, distinctAux]
      rw [if_pos hcond, if_pos ⟨hcond.1, hnotin⟩]
      rw [ih (seen ++ [(clean g.payload, 97 + seen.length)])]
      simp [assignFrom, List.append_assoc, Nat.add_assoc]
    · have hneg : ¬(clean g.payload ≠ [] ∧ clean g.payload ∉ seen.map Prod.fst) := by
        intro hcontra
        exact hcond ⟨hcontra.1, (lookup_eq_none_iff _ _).mpr hcontra.2⟩
      simp only [extractLoop, distinctAux]
      rw [if_neg hcond, if_neg hneg]
      exact ih seen

theorem distinctAux_mem : ∀ (gs : List MatchGroups) (keys : List (List Char))
    (d : List Char), d ∈ distinctAux gs keys → d ∉ keys ∧ d ≠ [] := by
  intro gs
  induction gs with
  | nil => intro keys d h; simp [distinctAux] at h
  | cons g rest ih =>
    intro keys d h
    simp only [distinctAux] at h
    by_cases hcond : clean g.payload ≠ [] ∧ clean g.payload ∉ keys
    · rw [if_pos hcond] at h
      rcases List.mem_cons.mp h with rfl | hmem
      · exact ⟨hcond.2, hcond.1⟩
      · have := ih (keys ++ [clean g.payload]) d hmem
        exact ⟨fun hk => this.1 (List.mem_append_left _ hk), this.2⟩
    · rw [if_neg hcond] at h
      exact ih keys d h

theorem distinctAux_nodup : ∀ (gs : List MatchGroups) (keys : List (List Char)),
    (distinctAux gs keys).Nodup := by
  intro gs
  induction gs with
  | nil => intro keys; simp [distinctAux]
  | cons g rest ih =>
    intro keys
    simp only [distinctAux]
    by_cases hcond : clean g.payload ≠ [] ∧ clean g.payload ∉ keys
    · rw [if_pos hcond]
      refine List.Nodup.cons ?_ (ih (keys ++ [clean g.payload]))
      intro hmem
      have := (distinctAux_mem rest (keys ++ [clean g.payload]) _ hmem).1
      exact this (List.mem_append_right _ (by simp))
    · rw [if_neg hcond]
      exact ih keys

theorem mem_distinctAux : ∀ (gs : List MatchGroups) (keys : List (List Char))
    (g : MatchGroups), g ∈ gs → clean g.payload ≠ [] →
    clean g.payload ∈ keys ∨ clean g.payload ∈ distinctAux gs keys := by
  intro gs
  induction gs with
  | nil => intro keys g hg; simp at hg
  | cons g0 rest ih =>
    intro keys g hg hne
    rcases List.mem_cons.mp hg with rfl | hmem
    · by_cases hcond : clean g.payload ≠ [] ∧ clean g.payload ∉ keys
      · right
        simp only [distinctAux]
        rw [if_pos hcond]
        exact List.mem_cons_self _ _
      · left
        by_cases hk : clean g.payload ∈ keys
        · exact hk
        · exact absurd ⟨hne, hk⟩ hcond
    · by_cases hcond : clean g0.payload ≠ [] ∧ clean g0.payload ∉ keys
      · simp only [distinctAux]
        rw [if_pos hcond]
        rcases ih (keys ++ [clean g0.payload]) g hmem hne with hk | hd
        · rcases List.mem_append.mp hk with hkk | hkd
          · exact Or.inl hkk
          · right
            simp at hkd
            simp [hkd]
        · exact Or.inr (List.mem_cons_of_mem _ hd)
      · simp only [distinctAux]
        rw [if_neg hcond]
        exact ih keys g hmem hne

theorem assignFrom_map_fst : ∀ (n : Nat) (l : List (List Char)),
    (assignFrom n l).map Prod.fst = l := by
  intro n l
  induction l generalizing n with
  | nil => simp [assignFrom]
  | cons d rest ih => simp [assignFrom, ih]

theorem assignFrom_snd_ge : ∀ (l : List (List Char)) (n x : Nat),
    x ∈ (assignFrom n l).map Prod.snd → n ≤ x := by
  intro l
  induction l with
  | nil => intro n x h; simp [assignFrom] at h
  | cons d rest ih =>
    intro n x h
    simp only [assignFrom, List.map_cons, List.mem_cons] at h
    rcases h with rfl | h
    · exact le_rfl
    · have := ih (n + 1) x h
      omega

theorem assignFrom_snd_nodup : ∀ (l : List (List Char)) (n : Nat),
    ((assignFrom n l).map Prod.snd).Nodup := by
  intro l
  induction l with
  | nil => intro n; simp [assignFrom]
  | cons d rest ih =>
    intro n
    simp only [assignFrom, List.map_cons]
    refine List.Nodup.cons ?_ (ih (n + 1))
    intro hmem
    have := assignFrom_snd_ge rest (n + 1) n hmem
    omega

/-- C3: the registry built by the extraction pass assigns to the n-th distinct
non-empty canonical shape, in first-occurrence order (0-based), the character
with code point ord 'a' + n = 97 + n; keys are pairwise distinct, assigned
characters are pairwise distinct, and entries already recorded are never
changed or reassigned by the rest of the scan (they persist as a prefix). -/
theorem c3_registry :
    (∀ content : List Char, load_and_extract content =
      assignFrom 97 (distinctAux (scanBlocks content) [])) ∧
    (∀ gs : List MatchGroups, ((extractLoop gs []).map Prod.fst).Nodup) ∧
    (∀ gs : List MatchGroups, ((extractLoop gs []).map Prod.snd).Nodup) ∧
    (∀ (gs : List MatchGroups) (seen : List (List Char × Nat)),
      (extractLoop gs seen).take seen.length = seen) := by
  refine ⟨?_, ?_, ?_, ?_⟩
  · intro content
    rw [load_and_extract, extractLoop_eq]
    simp
  · intro gs
    rw [extractLoop_eq]
    simp only [List.nil_append, List.map_nil]
    rw [assignFrom_map_fst]
    exact distinctAux_nodup gs []
  · intro gs
    rw [extractLoop_eq]
    simp only [List.nil_append, List.map_nil]
    exact assignFrom_snd_nodup _ _
  · intro gs seen
    rw [extractLoop_eq]
    exact List.take_left seen _

-- Concrete documents for the extraction/lookup claims (braces written \x7b,
-- \x7d).

def wsOnlyDocStr : String := "\x7b\\p1\x7d   \x7b\\p0\x7d"

def wsOnlyDoc : List Char := wsOnlyDocStr.data

def c9DocStr : String := "\x7b\\p1\x7dm 1 2\x7b\\p0\x7d"

def c9Doc : List Char := c9DocStr.data

def c9StartStr : String := "\x7b\\p1\x7d"

def c9PayloadStr : String := "m 1 2"

def c9EndStr : String := "\x7b\\p0\x7d"

def c9Block : MatchGroups := ⟨c9StartStr.data, c9PayloadStr.data, c9EndStr.data⟩

def c10DocStr : String := "\x7b\\p2\x7dm 3 4\x7b\\p0\x7dmid\x7b\\p1\x7d \t\x7b\\p0\x7d"

def c10Doc : List Char := c10DocStr.data

def c10AStartStr : String := "\x7b\\p2\x7d"

def c10APayloadStr : String := "m 3 4"

def c10BStartStr : String := "\x7b\\p1\x7d"

def c10BPayloadStr : String := " \t"

def c10BlockA : MatchGroups := ⟨c10AStartStr.data, c10APayloadStr.data, c9EndStr.data⟩

def c10BlockB : MatchGroups := ⟨c10BStartStr.data, c10BPayloadStr.data, c9EndStr.data⟩

/-- C9 counterexample: in the document "{\p1}   {\p0}" the extraction scan
matches exactly one block, whose payload is whitespace-only; its canonical form
(the empty string) is not registered, so the registry stays empty, contradicting
the claim that every matched block's payload is registered with an assigned
character. -/
theorem c9_counterexample :
    (scanBlocks wsOnlyDoc).length = 1 ∧
    (scanBlocks wsOnlyDoc).all
      (fun g => (lookup (load_and_extract wsOnlyDoc) (clean g.payload)).isNone) = true ∧
    load_and_extract wsOnlyDoc = [] := by
  refine ⟨by decide, by decide, by decide⟩

/-- C9 amended: every matched block whose payload has a non-empty canonical
form is registered, so after the scan its canonical form has an assigned
character; blocks whose payload canonicalizes to the empty string are skipped
and receive no registry entry. -/
theorem c9_amended (gs : List MatchGroups) (g : MatchGroups) (hg : g ∈ gs)
    (hne : clean g.payload ≠ []) :
    lookup (extractLoop gs []) (clean g.payload) ≠ none := by
  rw [extractLoop_eq]
  simp only [List.nil_append, List.map_nil, ne_eq, lookup_eq_none_iff,
    assignFrom_map_fst, not_not]
  rcases mem_distinctAux gs [] g hg hne with hk | hd
  · simp at hk
  · simpa using hd

/-- C9 amended witness: the single non-empty block of a concrete document is
registered. -/
theorem c9_amended_witness :
    lookup (extractLoop (scanBlocks c9Doc) []) (clean c9Block.payload) ≠ none :=
  c9_amended (scanBlocks c9Doc) c9Block (by decide) (by decide)

/-- C10: when the rewriter runs over the same document from which the
extraction pass built the shape-to-character mapping, the registry lookup of a
matched block's canonical payload fails exactly when that payload canonicalizes
to the empty string: lookups succeed for every matched block with non-empty
canonical payload, and the leave-untouched fallback is reachable only for
blocks whose payload collapses to empty. -/
theorem c10_lookup (content : List Char) (g : MatchGroups)
    (hg : g ∈ scanBlocks content) :
    lookup (load_and_extract content) (clean g.payload) = none ↔
      clean g.payload = [] := by
  rw [load_and_extract, extractLoop_eq]
  simp only [List.nil_append, List.map_nil]
  rw [lookup_eq_none_iff, assignFrom_map_fst]
  constructor
  · intro hnot
    by_contra hne
    rcases mem_distinctAux (scanBlocks content) [] g hg hne with hk | hd
    · simp at hk
    · exact hnot hd
  · intro hempty hmem
    exact (distinctAux_mem _ _ _ hmem).2 hempty

/-- C10 witness: in a document with one drawing block and one whitespace-only
block, the lookup for the non-empty block succeeds and the lookup for the
whitespace-only block fails. -/
theorem c10_lookup_witness :
    ¬(lookup (load_and_extract c10Doc) (clean c10BlockA.payload) = none) ∧
    lookup (load_and_extract c10Doc) (clean c10BlockB.payload) = none := by
  constructor
  · intro h
    exact absurd ((c10_lookup c10Doc c10BlockA (by decide)).mp h) (by decide)
  · exact (c10_lookup c10Doc c10BlockB (by decide)).mpr (by decide)

-- ==================== C4: whitespace canonicalization ====================

def dupDocStr : String :=
  "\x7b\\p1\x7dm 0 0 l 100 0 100 100 0 100\x7b\\p0\x7dX\x7b\\p1\x7dm 0 0 l 100 0 100 100 0 100\x7b\\p0\x7d"

def dupDoc : List Char := dupDocStr.data

def dupCleanStr : String := "m 0 0 l 100 0 100 100 0 100"

def dupClean : List Char := dupCleanStr.data

def dupRewrittenStr : String :=
  "\x7b\\fnASSDrawSubset\\p0\x7daX\x7b\\fnASSDrawSubset\\p0\x7da"

def dupRewritten : List Char := dupRewrittenStr.data

def wsVarStr : String := "  m  0\t0   l\n100 0  100 100 0 100 "

def wsVar : List Char := wsVarStr.data

/-- C4: drawing payloads that differ only in whitespace (identical token
sequence) map to the same canonical shape; a whitespace variant of the spec's
payload canonicalizes to the same key; and the document containing the payload
"m 0 0 l 100 0 100 100 0 100" twice yields exactly one registry entry, with
both blocks rewritten to reference the same single character 'a'. -/
theorem c4_whitespace :
    (∀ p1 p2 : List Char, pySplit p1 = pySplit p2 → clean p1 = clean p2) ∧
    clean wsVar = dupClean ∧
    load_and_extract dupDoc = [(dupClean, 97)] ∧
    subDrawing (load_and_extract dupDoc) dupDoc = dupRewritten := by
  refine ⟨?_, by decide, by decide, by decide⟩
  intro p1 p2 h
  rw [clean, clean, h]

/-- C4 witness: the token-sequence invariance applied to the concrete
whitespace variant and the canonical payload. -/
theorem c4_whitespace_witness : clean wsVar = clean dupClean :=
  c4_whitespace.1 wsVar dupClean (by decide)

-- ==================== C5: no capacity check ====================

-- 27 blocks with pairwise distinct one-character payloads (code points 48-74,
-- none of them whitespace).
def gs27 : List MatchGroups :=
  (List.range 27).map (fun i => ⟨[], [Char.ofNat (48 + i)], []⟩)

/-- C5: evaluation of the extraction loop at a document with 27 distinct
shapes.  The code performs no capacity check: instead of aborting, it assigns
the 27th unique shape the code point 97 + 26 = 123, which is the character
with code point 123 — the opening brace of ASS override blocks — and returns a
full 27-entry registry from which the pipeline proceeds to write output.  This
exhibits the absence of the CapacityExceeded abort required by the claim. -/
theorem c5_no_capacity_abort :
    (extractLoop gs27 []).length = 27 ∧
    ((extractLoop gs27 []).map Prod.snd).getLast? = some 123 ∧
    Char.ofNat 123 = '\x7b' := by
  refine ⟨by decide, by decide, by decide⟩

-- ==================== C6: block rewriting ====================

/-- C6: for the leftmost matched block, the rewriter emits the text before the
match unchanged, then — when the canonical payload has a registry entry — the
start tag with every drawing-mode directive replaced via pSub (the embedded
re.sub of a backslash-p-digit directive by backslash-fnASSDrawSubset followed
by backslash-p0) immediately followed by the single assigned character, the
payload and end tag being dropped; when the canonical payload has no entry,
the entire matched block text is emitted unchanged; in both cases processing
continues with the remaining text. -/
theorem c6_rewrite (reg : List (List Char × Nat)) (s pre : List Char)
    (g : MatchGroups) (rest : List Char)
    (h : findMatch s = some (pre, g, rest)) :
    subDrawing reg s = pre ++ (match lookup reg (clean g.payload) with
      | some code => pSub g.startTag ++ [Char.ofNat code]
      | none => g.startTag ++ g.payload ++ g.endTag) ++ subDrawing reg rest := by
  rw [subDrawing_eq]
  simp only [h]
  rfl

def c6RestStr : String := "mid\x7b\\p1\x7d \t\x7b\\p0\x7d"

def c6Rest : List Char := c6RestStr.data

/-- C6 witness: the rewrite equation instantiated on a concrete document whose
first block has a registered payload. -/
theorem c6_rewrite_witness :
    subDrawing (load_and_extract c10Doc) c10Doc =
      [] ++ (match lookup (load_and_extract c10Doc) (clean c10BlockA.payload) with
        | some code => pSub c10BlockA.startTag ++ [Char.ofNat code]
        | none => c10BlockA.startTag ++ c10BlockA.payload ++ c10BlockA.endTag) ++
      subDrawing (load_and_extract c10Doc) c6Rest :=
  c6_rewrite (load_and_extract c10Doc) c10Doc [] c10BlockA c6Rest (by decide)

-- ==================== C2: pass-through ====================

def c2DocStr : String := "\nX"

def c2Doc : List Char := c2DocStr.data

/-- C2 counterexample: the two-character document made of a newline followed by
X contains no drawing block and no Fonts section, yet the rewriter's output
does not begin with that document text: the final strip removes the leading
newline, so text outside matched blocks and outside any resource section is
not byte-identical in the output. -/
theorem c2_counterexample :
    scanBlocks c2Doc = [] ∧ removeFonts c2Doc = c2Doc ∧
    (rewrite_ass [] [] c2Doc).take c2Doc.length ≠ c2Doc := by
  refine ⟨by decide, by decide, by decide⟩

/-- C2 amended: the rewriter's output is exactly the document reassembled with
only the matched drawing blocks replaced — every inter-match segment and the
tail are byte-identical — after which everything from the first newline
followed by a Fonts header to the end is removed, leading and trailing
whitespace of the resulting text is stripped, and the new font block is
appended. -/
theorem c2_amended (reg : List (List Char × Nat)) (ttf : List Nat)
    (content : List Char) :
    joinOrig (scanSplit content) = content ∧
    rewrite_ass reg ttf content =
      pyStrip (removeFonts (joinRepl reg (scanSplit content))) ++ fontBlock ttf := by
  refine ⟨scanSplit_orig content, ?_⟩
  rw [rewrite_ass, subDrawing_repl]

end AssTools
